import Mathlib

/-!
# Functional Programming in C++ — verification development

A shallow embedding of the four demonstration programs

* `chapter-03/older-than-generic/main.cpp`
* `chapter-03/counting-team-members/main.cpp`
* `chapter-04/knuth-problem/main.cpp`
* `chapter-04/printing-people/main.cpp`

followed by theorems about them.

Conventions of the embedding:

* `int` values are `Int`, `unsigned`/`std::size_t` values are `Nat`; where the
  source narrows or can wrap, the reduction modulo `2^32` is written out.
* `std::string` is `String`, `char` is `Char`; `std::isalpha`/`std::tolower`
  are taken in the default "C" locale, the only one these programs run in.
* `std::vector<T>` is `List T`; `push_back` appends at the end.
* `std::unordered_map<K, V>` is an association list with distinct keys.  The
  order of that list is *not* the order in which the container enumerates its
  entries: wherever a program iterates over the container, the enumeration is
  an explicit argument ranging over the permutations of the entries.
* A callable `void f(T&)` is a function `T → σ → T × σ`: the new value of the
  referenced object, and the new value of everything else the call can touch.
-/

namespace FPCpp

/-! ## Standard-library algorithms used by the programs -/

/-- The loop of `std::count_if`: walk the range once, bumping a counter on every
element that satisfies the predicate. -/
def count_if_loop {α : Type} (pred : α → Bool) : List α → Nat → Nat
  | [], n => n
  | x :: rest, n => count_if_loop pred rest (if pred x then n + 1 else n)

/-- The algorithm `std::count_if(first, last, pred)`. -/
def count_if {α : Type} (range : List α) (pred : α → Bool) : Nat :=
  count_if_loop pred range 0

/-- The conversion `static_cast<int>` of a non-negative `difference_type`: reduction modulo
`2^32` into the range `[-2^31, 2^31)`. -/
def static_cast_int (n : Nat) : Int :=
  ((n : Int) + 2 ^ 31) % 2 ^ 32 - 2 ^ 31

/-! ## `common/person.h` -/

/-- Modelled from the spec: `person_t::gender_t` of `common/person.h`, the
"binary classification, e.g. gender enum" of the person record. -/
inductive gender_t
  | female
  | male
  deriving DecidableEq, Repr

/-- Modelled from the spec: `person_t` of `common/person.h`, a record with
"name (text), category (binary classification, e.g. gender enum), age (integer)",
constructed from `(name, gender, age)` and queried for its name and age. -/
structure person_t where
  m_name : String
  m_gender : gender_t
  m_age : Int
  deriving DecidableEq, Repr

/-- The accessor `person_t::name()`. -/
def person_t.name (p : person_t) : String := p.m_name

/-- The accessor `person_t::age()`. -/
def person_t.age (p : person_t) : Int := p.m_age

/-! ## chapter-03/older-than-generic -/

/-- The capability `older_than::operator()` requires of its argument: an
`age()` query returning `int`. -/
class HasAge (α : Type) where
  age : α → Int

/-- The record `car_t`. -/
structure car_t where
  model : String
  years_on_road : Int := 0
  deriving DecidableEq, Repr

/-- The member `car_t::age()`. -/
def car_t.age (c : car_t) : Int := c.years_on_road

/-- The record `project_t`. -/
structure project_t where
  code : String
  months_elapsed : Int := 0
  deriving DecidableEq, Repr

/-- The member `project_t::age()`: `months_elapsed / 12` on `int`, which truncates
toward zero. -/
def project_t.age (p : project_t) : Int := Int.tdiv p.months_elapsed 12

instance : HasAge car_t := ⟨car_t.age⟩
instance : HasAge project_t := ⟨project_t.age⟩
instance : HasAge person_t := ⟨person_t.age⟩

/-- The function object `older_than`, holding its limit. -/
structure older_than where
  m_limit : Int
  deriving DecidableEq, Repr

/-- The call `older_than::operator()`: `object.age() > m_limit`. -/
def older_than.call {α : Type} [HasAge α] (self : older_than) (object : α) : Bool :=
  decide (HasAge.age object > self.m_limit)

/-- The vector `cars` of `main`. -/
def cars : List car_t :=
  [⟨"Axiom", 6⟩, ⟨"Lantern", 1⟩, ⟨"Nova", 3⟩, ⟨"Vector", 5⟩, ⟨"Nimbus", 7⟩, ⟨"Rift", 2⟩]

/-- The object `older_than_5` of `main`. -/
def older_than_5 : older_than := ⟨5⟩

/-- The value `cars_over_5` of `main`. -/
def cars_over_5 : Nat := count_if cars older_than_5.call

/-- The vector `projects` of `main`. -/
def projects : List project_t :=
  [⟨"PX", 13⟩, ⟨"QZ", 7⟩, ⟨"RY", 24⟩, ⟨"ST", 5⟩]

/-! ## `std::unordered_map` -/

/-- An `std::unordered_map<K, V>`: its entries, keys pairwise distinct. -/
abbrev unordered_map (κ ν : Type) := List (κ × ν)

/-- The lookup `m.find(key)`: the mapped value, or `none` for `m.end()`. -/
def unordered_map.find {κ ν : Type} [DecidableEq κ] : unordered_map κ ν → κ → Option ν
  | [], _ => none
  | (k, v) :: rest, key => if k = key then some v else unordered_map.find rest key

/-- The access `m[key]` followed by an update `g` of the reference it returns: a
missing key is first inserted with the value-initialised `init`. -/
def unordered_map.subscript {κ ν : Type} [DecidableEq κ] (init : ν) (g : ν → ν) :
    unordered_map κ ν → κ → unordered_map κ ν
  | [], key => [(key, g init)]
  | (k, v) :: rest, key =>
    if k = key then (k, g v) :: rest else (k, v) :: unordered_map.subscript init g rest key

/-! ## chapter-03/counting-team-members -/

/-- The class `company_t`. -/
structure company_t where
  m_employees : List person_t := []
  m_team_by_person : unordered_map String String := []

/-- The member `company_t::hire`. -/
def company_t.hire (self : company_t) (person : person_t) (team_name : String) : company_t :=
  { m_team_by_person :=
      unordered_map.subscript "" (fun _ => team_name) self.m_team_by_person person.name
    m_employees := self.m_employees ++ [person] }

/-- The member `company_t::team_name_for`. -/
def company_t.team_name_for (self : company_t) (person : person_t) : String :=
  match unordered_map.find self.m_team_by_person person.name with
  | some second => second
  | none => "Unknown"

/-- The member `company_t::count_team_members`. -/
def company_t.count_team_members (self : company_t) (team_name : String) : Int :=
  static_cast_int
    (count_if self.m_employees fun employee => decide (self.team_name_for employee = team_name))

/-- The nine `hire` calls of `main`, in order. -/
def main_hires : List (person_t × String) :=
  [(⟨"Jane", .female, 56⟩, "Mars"), (⟨"David", .male, 24⟩, "Earth"),
   (⟨"Tom", .male, 52⟩, "Mars"), (⟨"Peter", .male, 84⟩, "Mars"),
   (⟨"Martha", .female, 32⟩, "Moon"), (⟨"Rose", .female, 31⟩, "Moon"),
   (⟨"Jon", .male, 42⟩, "Earth"), (⟨"Colin", .male, 29⟩, "Moon"),
   (⟨"Clara", .female, 27⟩, "Moon")]

/-- The state of `company` in `main` after the nine `hire` calls. -/
def main_company : company_t :=
  main_hires.foldl (fun company h => company.hire h.1 h.2) {}

/-! ## chapter-04/printing-people -/

/-- The class `partial_application_bind2nd_impl`. -/
structure partial_application_bind2nd_impl (Function SecondArgType : Type) where
  m_function : Function
  m_second_arg : SecondArgType

/-- The call `partial_application_bind2nd_impl::operator()`:
`m_function(first_arg, m_second_arg)`. -/
def partial_application_bind2nd_impl.call {α β γ : Type}
    (self : partial_application_bind2nd_impl (α → β → γ) β) (first_arg : α) : γ :=
  self.m_function first_arg self.m_second_arg

/-- The helper `bind2nd`. -/
def bind2nd {α β γ : Type} (function : α → β → γ) (second_arg : β) :
    partial_application_bind2nd_impl (α → β → γ) β :=
  ⟨function, second_arg⟩

/-- The function `greater`.  The carrier `α` stands for `double` and `<` for its
built-in comparison; nothing else about `double` is used. -/
def greater {α : Type} [LT α] [DecidableRel fun a b : α => a < b] (first second : α) : Bool :=
  decide (first > second)

/-- The function `greater_curried`: captures `first`, returns the closure over
`second`. -/
def greater_curried {α : Type} [LT α] [DecidableRel fun a b : α => a < b] (first : α) :
    α → Bool :=
  fun second => decide (first > second)

/-! ## chapter-04/knuth-problem -/

/-- The classifier `std::isalpha` in the "C" locale: true exactly on `A`–`Z` and `a`–`z`. -/
def isalpha (ch : Char) : Bool :=
  (65 ≤ ch.toNat && ch.toNat ≤ 90) || (97 ≤ ch.toNat && ch.toNat ≤ 122)

/-- The conversion `std::tolower` in the "C" locale: `A`–`Z` go to `a`–`z`, everything else is kept. -/
def tolower (ch : Char) : Char :=
  if 65 ≤ ch.toNat ∧ ch.toNat ≤ 90 then Char.ofNat (ch.toNat + 32) else ch

/-- The conversion `std::toupper` in the "C" locale: `a`–`z` go to `A`–`Z`, everything else is kept. -/
def toupper (ch : Char) : Char :=
  if 97 ≤ ch.toNat ∧ ch.toNat ≤ 122 then Char.ofNat (ch.toNat - 32) else ch

/-- The body of `words` from the `for` loop on: the characters still to read, the
vector `out` and the token `cur` under construction. -/
def words_loop : List Char → List String → String → List String
  | [], out, cur => if cur ≠ "" then out ++ [cur] else out
  | ch :: rest, out, cur =>
    if isalpha ch then
      words_loop rest out (cur.push (tolower ch))
    else if cur ≠ "" then
      words_loop rest (out ++ [cur]) ""
    else
      words_loop rest out cur

/-- The function `words`. -/
def words (text : String) : List String :=
  words_loop text.toList [] ""

/-- The function `count_occurrences`: `++result[v]` for every `v`, on `unsigned int`. -/
def count_occurrences {T : Type} [DecidableEq T] (collection : List T) : unordered_map T Nat :=
  collection.foldl
    (fun result v => unordered_map.subscript 0 (fun n => (n + 1) % 2 ^ 32) result v) []

/-- The function `reverse_pairs`, applied to the entries of `items` in the order the
container enumerates them. -/
def reverse_pairs {P1 P2 : Type} (items : List (P1 × P2)) : List (P2 × P1) :=
  items.map fun p => (p.2, p.1)

/-- The comparator lambda of `sort_by_frequency`; `operator<` of `std::string` compares
the two character sequences lexicographically. -/
def by_frequency (a b : Nat × String) : Bool :=
  if a.1 ≠ b.1 then decide (a.1 > b.1) else decide (a.2.toList < b.2.toList)

/-- The order the specification asks of the sorted pairs: larger count first, and for
equal counts the lexicographically smaller word first. -/
def in_frequency_order (a b : Nat × String) : Prop :=
  a.1 > b.1 ∨ (a.1 = b.1 ∧ a.2 ≤ b.2)

/-- Insertion of `x` into an already sorted range, before the first element that `x`
must precede. -/
def sorted_insert {α : Type} (comp : α → α → Bool) (x : α) : List α → List α
  | [] => [x]
  | y :: rest => if comp x y then x :: y :: rest else y :: sorted_insert comp x rest

/-- The algorithm `std::sort(first, last, comp)`, embedded as insertion sort.  The standard fixes only
the result (a rearrangement of the range in which no element is `comp`-before an earlier
one), not the algorithm; `eq_sort_by_frequency` shows that under `by_frequency` this
leaves a single possible result. -/
def std_sort {α : Type} (comp : α → α → Bool) : List α → List α
  | [] => []
  | x :: rest => sorted_insert comp x (std_sort comp rest)

/-- The function `sort_by_frequency`; the vector is passed by reference, its new value is
returned. -/
def sort_by_frequency (v : List (Nat × String)) : List (Nat × String) :=
  std_sort by_frequency v

/-- The loop of `print_pairs`: the pairs still to visit, the counter `shown`, and the
text written to `std::cout` so far. -/
def print_pairs_loop (topN : Nat) : List (Nat × String) → Nat → String → String
  | [], _, cout => cout
  | p :: rest, shown, cout =>
    if shown ≥ topN then cout
    else print_pairs_loop topN rest (shown + 1) (cout ++ toString p.1 ++ " " ++ p.2 ++ "\n")

/-- The function `print_pairs`: the text it writes to `std::cout`. -/
def print_pairs (v : List (Nat × String)) (topN : Nat) : String :=
  print_pairs_loop topN v 0 ""

/-- The function `to_upper`, as the new value of the string it is given. -/
def to_upper (s : String) : String :=
  String.mk (s.toList.map toupper)

/-- The function `pointer_lift`: `item` is `none` for a null pointer and `some x` for a
pointer to an object of value `x`; the result is the pointee afterwards, with the rest of
the state. -/
def pointer_lift {α σ : Type} (f : α → σ → α × σ) (item : Option α) (world : σ) :
    Option α × σ :=
  match item with
  | some x => (some (f x world).1, (f x world).2)
  | none => (none, world)

/-- The function `collection_lift`: `f` on every item, first to last. -/
def collection_lift {α σ : Type} (f : α → σ → α × σ) : List α → σ → List α × σ
  | [], world => ([], world)
  | item :: rest, world =>
    ((f item world).1 :: (collection_lift f rest (f item world).2).1,
      (collection_lift f rest (f item world).2).2)

/-- The function `print_common_words`: the text it writes to `std::cout`, given the
order `enumerate` in which the unordered map `counts` hands out its entries. -/
def print_common_words (enumerate : unordered_map String Nat → List (String × Nat))
    (text : String) (topN : Nat) : String :=
  let counts := count_occurrences (words text)
  let flipped := reverse_pairs (enumerate counts)
  print_pairs (sort_by_frequency flipped) topN

/-- The string `text` of `main`. -/
def main_text : String :=
  "Mr. Jones of the Manor Farm, had locked the hen-houses for the night, " ++
    "but was too drunk to remember to shut the popholes."

/-! ## Further definitions: histories, instrumentation, numeric arguments -/

/-- A sequence of `hire` calls, applied in order to a company. -/
def company_t.hire_all (self : company_t) (hires : List (person_t × String)) : company_t :=
  hires.foldl (fun company h => company.hire h.1 h.2) self

/-- The team of the latest call in `hires` that hired somebody named `name`, if any. -/
def last_assigned (hires : List (person_t × String)) (name : String) : Option String :=
  (hires.reverse.find? fun h => decide (h.1.name = name)).map Prod.snd

/-- The tally inside `count_team_members`, before its conversion to `int`. -/
def company_t.team_tally (self : company_t) (team_name : String) : Nat :=
  count_if self.m_employees fun employee => decide (self.team_name_for employee = team_name)

/-- The distinct team names present in the lookup table. -/
def company_t.team_names (self : company_t) : List String :=
  (self.m_team_by_person.map Prod.snd).dedup

/-- A callable `void f(T&)` whose only effect is to replace its argument by `g` of it. -/
def pure_call {α σ : Type} (g : α → α) : α → σ → α × σ :=
  fun x world => (g x, world)

/-- The callable `f`, instrumented with a counter of its invocations. -/
def counted {α σ : Type} (f : α → σ → α × σ) : α → σ × Nat → α × (σ × Nat) :=
  fun x world => ((f x world.1).1, ((f x world.1).2, world.2 + 1))

/-- A finite value of type `double`: the number `mantissa * 2 ^ exponent`.  Infinities
and NaN are left out; the two "greater than 42" callables never produce them. -/
structure double_t where
  mantissa : Int
  exponent : Int
  deriving DecidableEq, Repr

/-- The mantissa of `x` once its exponent is lowered to `e ≤ x.exponent`. -/
def double_t.scaled (x : double_t) (e : Int) : Int :=
  x.mantissa * 2 ^ (x.exponent - e).toNat

/-- The built-in `x > y` on `double`, which `std::greater<double>` applies: both values
are put on their smaller exponent and the mantissas compared. -/
def std_greater_double (x y : double_t) : Bool :=
  decide (x.scaled (min x.exponent y.exponent) > y.scaled (min x.exponent y.exponent))

/-- An argument of arithmetic type passed to one of the "greater than 42" callables. -/
inductive numeric_t
  | int_value (i : Int)
  | double_value (d : double_t)
  deriving DecidableEq, Repr

/-- The implicit conversion to `double`; from `int` it is exact. -/
def numeric_t.to_double : numeric_t → double_t
  | .int_value i => ⟨i, 0⟩
  | .double_value d => d

/-- The implicit conversion to `int`; from `double` it discards the fractional part. -/
def numeric_t.to_int : numeric_t → Int
  | .int_value i => i
  | .double_value d =>
    if 0 ≤ d.exponent then d.mantissa * 2 ^ d.exponent.toNat
    else Int.tdiv d.mantissa (2 ^ (-d.exponent).toNat)

/-- The object `is_greater_than_42` of `main`: `std::bind(std::greater<double>(), _1, 42)`,
called with `x`.  Both the argument and the stored `42` are converted to `double`. -/
def is_greater_than_42 (x : numeric_t) : Bool :=
  std_greater_double x.to_double (numeric_t.int_value 42).to_double

/-- The closure `gt42_lambda` of `main`: `[limit = 42](int x) { return x > limit; }`,
called with `x`.  The argument is converted to the parameter type `int`. -/
def gt42_lambda (x : numeric_t) : Bool :=
  let limit : Int := 42
  decide (x.to_int > limit)

/-- The line `print_pairs` writes for one pair. -/
def pair_line (p : Nat × String) : String :=
  toString p.1 ++ " " ++ p.2 ++ "\n"

/-- The maximal runs of alphabetic characters of a text, in order of appearance, each
lowercased: the text is cut at every non-alphabetic character and the empty pieces are
dropped. -/
def alphabetic_runs (text : String) : List String :=
  ((text.toList.splitOnP fun ch => !isalpha ch).filter fun run => decide (run ≠ [])).map
    fun run => String.mk (run.map tolower)

/-! ## Theorems -/

theorem count_if_loop_eq {α : Type} (pred : α → Bool) (range : List α) (n : Nat) :
    count_if_loop pred range n = n + (range.filter pred).length := by
  induction range generalizing n with
  | nil => simp [count_if_loop]
  | cons x rest ih =>
    rw [count_if_loop, ih]
    by_cases hx : pred x = true <;> simp [hx, List.filter_cons]; omega

theorem count_if_eq {α : Type} (range : List α) (pred : α → Bool) :
    count_if range pred = (range.filter pred).length := by
  simp [count_if, count_if_loop_eq]

/-- C1: for every two-argument operation `f`, fixed value `k` and argument `x`,
`bind2nd(f, k)(x)` is `f(x, k)`. -/
theorem bind2nd_call {α β γ : Type} (f : α → β → γ) (k : β) (x : α) :
    (bind2nd f k).call x = f x k := rfl

/-- C2: counting a sequence of aged records with `older_than(t)` gives the number of
its elements whose age is strictly greater than `t`; equality of age and `t` does not
count. -/
theorem count_if_older_than {α : Type} [HasAge α] (t : Int) (R : List α) :
    count_if R (older_than.mk t).call = (R.filter fun r => decide (t < HasAge.age r)).length ∧
      ∀ r : α, HasAge.age r = t → (older_than.mk t).call r = false := by
  refine ⟨?_, ?_⟩
  · rw [count_if_eq]
    rfl
  · intro r hr
    simp [older_than.call, hr]

/-- C2, at threshold 5 over the cars of `main`, whose "Vector" has age exactly 5. -/
theorem count_if_older_than_cars :
    count_if cars (older_than.mk 5).call =
        (cars.filter fun r => decide ((5 : Int) < HasAge.age r)).length ∧
      (older_than.mk 5).call (car_t.mk "Vector" 5) = false :=
  ⟨(count_if_older_than 5 cars).1,
    (count_if_older_than 5 cars).2 (car_t.mk "Vector" 5) (by decide)⟩

/-- C3 (as stated, refuted): threshold 5 over the cars with years-on-road
6, 1, 3, 5, 7, 2 does not count 3. -/
theorem cars_over_5_ne_three :
    cars.map car_t.years_on_road = [6, 1, 3, 5, 7, 2] ∧ older_than_5.m_limit = 5 ∧
      count_if cars older_than_5.call ≠ 3 := by
  decide

/-- C3 (amended): threshold 5 over the cars with years-on-road 6, 1, 3, 5, 7, 2 counts 2:
only 6 and 7 are strictly greater than 5. -/
theorem cars_over_5_eq :
    cars.map car_t.years_on_road = [6, 1, 3, 5, 7, 2] ∧ older_than_5.m_limit = 5 ∧
      cars_over_5 = 2 := by
  decide

/-- C4: after the nine hires of `main`, `count_team_members` is 3 for "Mars", 2 for
"Earth", 4 for "Moon", and 0 for every team name that no hire assigned. -/
theorem main_company_counts :
    main_company.count_team_members "Mars" = 3 ∧
      main_company.count_team_members "Earth" = 2 ∧
      main_company.count_team_members "Moon" = 4 ∧
      ∀ team : String, team ∉ main_hires.map Prod.snd →
        main_company.count_team_members team = 0 := by
  refine ⟨by decide, by decide, by decide, ?_⟩
  intro team hteam
  have hteams : main_company.m_employees.map main_company.team_name_for =
      main_hires.map Prod.snd := by decide
  have hnil : main_company.m_employees.filter
      (fun employee => decide (main_company.team_name_for employee = team)) = [] := by
    rw [List.filter_eq_nil_iff]
    intro employee hmem heq
    apply hteam
    rw [← hteams]
    exact List.mem_map.mpr ⟨employee, hmem, of_decide_eq_true heq⟩
  rw [company_t.count_team_members, count_if_eq, hnil]
  decide

/-- C4, at the team name "Jupiter" of `main`. -/
theorem main_company_counts_jupiter : main_company.count_team_members "Jupiter" = 0 :=
  main_company_counts.2.2.2 "Jupiter" (by decide)

/-- C5: `greater_curried(a)(b)` equals `greater(a, b)`, and both are true exactly when
`a` is strictly greater than `b`. -/
theorem greater_curried_eq_greater {α : Type} [LT α] [DecidableRel fun a b : α => a < b]
    (a b : α) :
    greater_curried a b = greater a b ∧ (greater a b = true ↔ a > b) ∧
      (greater_curried a b = true ↔ a > b) := by
  simp [greater_curried, greater]


/-! ### Tokenisation -/

theorem words_loop_flatten (rest : List Char) (out : List String) (cur : String) :
    ((words_loop rest out cur).map String.data).flatten =
      (out.map String.data).flatten ++ cur.data ++ (rest.filter isalpha).map tolower := by
  induction rest generalizing out cur with
  | nil =>
    by_cases hcur : cur = ""
    · simp [words_loop, hcur]
    · simp [words_loop, hcur]
  | cons ch rest ih =>
    by_cases hch : isalpha ch = true
    · simp [words_loop, hch, ih, String.data_push]
    · by_cases hcur : cur = ""
      · simp [words_loop, hch, hcur, ih]
      · simp [words_loop, hch, hcur, ih]

/-- C6: the tokens of `words(text)`, concatenated in order, are the alphabetic characters
of `text`, in their original order, each converted to lower case. -/
theorem words_join_eq_skeleton (text : String) :
    String.join (words text) = String.mk ((text.toList.filter isalpha).map tolower) := by
  apply String.ext
  have h := words_loop_flatten text.toList [] ""
  simpa [words] using h

/-! ### Sorting -/

theorem sorted_insert_perm {α : Type} (comp : α → α → Bool) (x : α) (l : List α) :
    (sorted_insert comp x l).Perm (x :: l) := by
  induction l with
  | nil => exact List.Perm.refl _
  | cons y rest ih =>
    by_cases h : comp x y = true
    · simp [sorted_insert, h]
    · simp only [sorted_insert, h]
      exact (ih.cons y).trans (List.Perm.swap x y rest)

theorem std_sort_perm {α : Type} (comp : α → α → Bool) (v : List α) :
    (std_sort comp v).Perm v := by
  induction v with
  | nil => exact List.Perm.refl _
  | cons x rest ih => exact (sorted_insert_perm comp x _).trans (ih.cons x)

theorem by_frequency_eq_false_iff (a b : Nat × String) :
    by_frequency b a = false ↔ in_frequency_order a b := by
  unfold by_frequency in_frequency_order
  by_cases h : b.1 = a.1
  · simp [h, ← String.lt_iff_toList_lt]
  · have h2 : ¬ a.1 = b.1 := fun e => h e.symm
    simp [h, h2]
    omega

theorem in_frequency_order_of_by_frequency (a b : Nat × String)
    (h : by_frequency a b = true) : in_frequency_order a b := by
  unfold by_frequency at h
  unfold in_frequency_order
  by_cases h1 : a.1 = b.1
  · simp only [h1, ne_eq, not_true_eq_false, if_false, decide_eq_true_eq] at h
    exact Or.inr ⟨h1, le_of_lt (String.lt_iff_toList_lt.mpr h)⟩
  · simp [h1] at h
    exact Or.inl h

theorem in_frequency_order_of_not (a b : Nat × String) (h : ¬ by_frequency a b = true) :
    in_frequency_order b a :=
  (by_frequency_eq_false_iff b a).mp (by simpa using h)

theorem in_frequency_order_total (a b : Nat × String) (h : ¬ in_frequency_order a b) :
    in_frequency_order b a := by
  unfold in_frequency_order at *
  rcases lt_trichotomy a.1 b.1 with h1 | h1 | h1
  · exact Or.inl h1
  · right
    refine ⟨h1.symm, ?_⟩
    by_contra h2
    exact h (Or.inr ⟨h1, le_of_lt (not_le.mp h2)⟩)
  · exact absurd (Or.inl h1) h

theorem in_frequency_order_trans (a b c : Nat × String) (hab : in_frequency_order a b)
    (hbc : in_frequency_order b c) : in_frequency_order a c := by
  unfold in_frequency_order at *
  rcases hab with h1 | ⟨h1, h2⟩ <;> rcases hbc with h3 | ⟨h3, h4⟩
  · left; omega
  · left; omega
  · left; omega
  · right; exact ⟨h1.trans h3, le_trans h2 h4⟩

theorem in_frequency_order_antisymm (a b : Nat × String) (hab : in_frequency_order a b)
    (hba : in_frequency_order b a) : a = b := by
  unfold in_frequency_order at *
  rcases hab with h1 | ⟨h1, h2⟩ <;> rcases hba with h3 | ⟨h3, h4⟩
  · omega
  · omega
  · omega
  · exact Prod.ext h1 (le_antisymm h2 h4)

theorem sorted_insert_sorted (x : Nat × String) (l : List (Nat × String))
    (hl : l.Pairwise in_frequency_order) :
    (sorted_insert by_frequency x l).Pairwise in_frequency_order := by
  induction l with
  | nil => simp [sorted_insert]
  | cons y rest ih =>
    rw [List.pairwise_cons] at hl
    by_cases h : by_frequency x y = true
    · simp only [sorted_insert, h, if_true]
      have hxy : in_frequency_order x y := in_frequency_order_of_by_frequency x y h
      refine List.Pairwise.cons ?_ (List.Pairwise.cons hl.1 hl.2)
      intro z hz
      rcases List.mem_cons.mp hz with hz | hz
      · exact hz ▸ hxy
      · exact in_frequency_order_trans x y z hxy (hl.1 z hz)
    · simp only [sorted_insert, h]
      refine List.Pairwise.cons ?_ (ih hl.2)
      intro z hz
      rcases List.mem_cons.mp ((sorted_insert_perm by_frequency x rest).subset hz) with hz | hz
      · exact hz ▸ in_frequency_order_of_not x y h
      · exact hl.1 z hz

theorem sort_by_frequency_sorted (v : List (Nat × String)) :
    (sort_by_frequency v).Pairwise in_frequency_order := by
  unfold sort_by_frequency
  induction v with
  | nil => simp [std_sort]
  | cons x rest ih => exact sorted_insert_sorted x _ ih

/-- Under `by_frequency` a range has one sorted rearrangement only: whatever `std::sort`
does internally, it returns `sort_by_frequency v`. -/
theorem eq_sort_by_frequency (v l : List (Nat × String)) (hperm : l.Perm v)
    (hsorted : l.Pairwise fun a b => by_frequency b a = false) :
    l = sort_by_frequency v := by
  have hl : l.Pairwise in_frequency_order :=
    hsorted.imp fun {a b} h => (by_frequency_eq_false_iff a b).mp h
  have hanti : IsAntisymm (Nat × String) in_frequency_order :=
    ⟨in_frequency_order_antisymm⟩
  exact List.eq_of_perm_of_sorted (hperm.trans (std_sort_perm by_frequency v).symm) hl
    (sort_by_frequency_sorted v)

/-- C7: applying `sort_by_frequency` twice yields the same sequence as applying it
once. -/
theorem sort_by_frequency_idempotent (v : List (Nat × String)) :
    sort_by_frequency (sort_by_frequency v) = sort_by_frequency v :=
  (eq_sort_by_frequency (sort_by_frequency v) (sort_by_frequency v) (List.Perm.refl _)
    ((sort_by_frequency_sorted v).imp fun {a b} h => (by_frequency_eq_false_iff a b).mpr h)).symm

/-- C8: the result of `sort_by_frequency` is a permutation of its input in which every
pair and its successor `(c1, w1)`, `(c2, w2)` satisfy `c1 > c2`, or `c1 = c2` and
`w1 ≤ w2`. -/
theorem sort_by_frequency_perm_ordered (v : List (Nat × String)) :
    (sort_by_frequency v).Perm v ∧
      List.Chain' (fun a b : Nat × String => a.1 > b.1 ∨ (a.1 = b.1 ∧ a.2 ≤ b.2))
        (sort_by_frequency v) :=
  ⟨std_sort_perm by_frequency v, (sort_by_frequency_sorted v).chain'⟩

/-- C9: for every text and every `N`, two runs of the pipeline that differ only in the
order in which the unordered count mapping enumerates its entries sort to the same
sequence of (count, word) pairs and write the same output. -/
theorem print_common_words_reproducible
    (enum₁ enum₂ : unordered_map String Nat → List (String × Nat)) (text : String) (topN : Nat)
    (h₁ : (enum₁ (count_occurrences (words text))).Perm (count_occurrences (words text)))
    (h₂ : (enum₂ (count_occurrences (words text))).Perm (count_occurrences (words text))) :
    sort_by_frequency (reverse_pairs (enum₁ (count_occurrences (words text)))) =
        sort_by_frequency (reverse_pairs (enum₂ (count_occurrences (words text)))) ∧
      print_common_words enum₁ text topN = print_common_words enum₂ text topN := by
  have hsort : sort_by_frequency (reverse_pairs (enum₁ (count_occurrences (words text)))) =
      sort_by_frequency (reverse_pairs (enum₂ (count_occurrences (words text)))) := by
    apply eq_sort_by_frequency
    · refine (std_sort_perm by_frequency _).trans ?_
      exact (h₁.trans h₂.symm).map _
    · exact (sort_by_frequency_sorted _).imp fun {a b} h =>
        (by_frequency_eq_false_iff a b).mpr h
  refine ⟨hsort, ?_⟩
  simp only [print_common_words, hsort]

/-- C9, on the text "b a b" with `N = 1`, for the enumeration in insertion order and the
reverse one. -/
theorem print_common_words_reproducible_witness :
    (id (count_occurrences (words "b a b"))).Perm (count_occurrences (words "b a b")) ∧
      (List.reverse (count_occurrences (words "b a b"))).Perm
        (count_occurrences (words "b a b")) ∧
      print_common_words id "b a b" 1 = print_common_words List.reverse "b a b" 1 :=
  ⟨List.Perm.refl _, List.reverse_perm _,
    (print_common_words_reproducible id List.reverse "b a b" 1 (List.Perm.refl _)
      (List.reverse_perm _)).2⟩

/-! ### Lifting -/

theorem collection_lift_noop {α σ : Type} (xs : List α) (world : σ) :
    collection_lift (fun (x : α) (w : σ) => (x, w)) xs world = (xs, world) := by
  induction xs with
  | nil => rfl
  | cons item rest ih => simp [collection_lift, ih]

/-- C10: lifting the function that does nothing leaves all values unchanged:
`pointer_lift` of it, applied to a non-null pointer to `x`, leaves `x` (and everything
else) as it was, and `collection_lift` of it leaves the collection as it was, element by
element, in length and in order. -/
theorem lift_noop_unchanged {α σ : Type} (x : α) (xs : List α) (world : σ) :
    pointer_lift (fun (y : α) (w : σ) => (y, w)) (some x) world = (some x, world) ∧
      collection_lift (fun (y : α) (w : σ) => (y, w)) xs world = (xs, world) ∧
      (collection_lift (fun (y : α) (w : σ) => (y, w)) xs world).1.length = xs.length ∧
      ∀ i : Fin xs.length,
        (collection_lift (fun (y : α) (w : σ) => (y, w)) xs world).1[i.val]? = some xs[i] := by
  refine ⟨rfl, collection_lift_noop xs world, ?_, ?_⟩
  · rw [collection_lift_noop]
  · intro i
    rw [collection_lift_noop]
    simp

theorem collection_lift_pure_call {α σ : Type} (g : α → α) (xs : List α) (world : σ) :
    collection_lift (pure_call g) xs world = (xs.map g, world) := by
  induction xs with
  | nil => rfl
  | cons item rest ih => simp [collection_lift, pure_call, ih]

theorem collection_lift_counted {α σ : Type} (f : α → σ → α × σ) (xs : List α) (world : σ)
    (calls : Nat) :
    (collection_lift (counted f) xs (world, calls)).2.2 = calls + xs.length := by
  induction xs generalizing world calls with
  | nil => rfl
  | cons item rest ih =>
    simp only [collection_lift, counted, ih, List.length_cons]
    omega

/-- C11: for every `f`, `pointer_lift(f)` applied to a null pointer does nothing: no
value changes and `f` is not invoked; applied to a non-null pointer to `x` it
invokes `f` once, `x` becomes what `f` makes of it, and nothing changes but
what that one call changes. -/
theorem pointer_lift_null_and_non_null {α σ : Type} (f : α → σ → α × σ) (x : α) (world : σ)
    (calls : Nat) :
    pointer_lift f none world = (none, world) ∧
      pointer_lift (counted f) none (world, calls) = (none, (world, calls)) ∧
      pointer_lift f (some x) world = (some (f x world).1, (f x world).2) ∧
      pointer_lift (counted f) (some x) (world, calls) =
        (some (f x world).1, ((f x world).2, calls + 1)) :=
  ⟨rfl, rfl, rfl, rfl⟩

/-- C12: for every function `g` on a single value, `collection_lift(g)` turns a
collection `xs` into one of the same length whose `i`-th element is `g` of the `i`-th
element of `xs`, calling `g` once per element and touching nothing else; with `to_upper`,
`["Animal", "farm", "Boxer"]` becomes `["ANIMAL", "FARM", "BOXER"]`. -/
theorem collection_lift_elementwise {α σ : Type} (g : α → α) (xs : List α) (world : σ) :
    (collection_lift (pure_call g) xs world).1.length = xs.length ∧
      (∀ i : Fin xs.length,
        (collection_lift (pure_call g) xs world).1[i.val]? = some (g xs[i])) ∧
      (collection_lift (pure_call g) xs world).2 = world ∧
      (collection_lift (counted (pure_call g)) xs (world, 0)).2.2 = xs.length ∧
      (collection_lift (pure_call to_upper) ["Animal", "farm", "Boxer"] world).1 =
        ["ANIMAL", "FARM", "BOXER"] := by
  refine ⟨?_, ?_, ?_, ?_, ?_⟩
  · simp [collection_lift_pure_call]
  · intro i
    simp [collection_lift_pure_call]
  · simp [collection_lift_pure_call]
  · simp [collection_lift_counted]
  · rw [collection_lift_pure_call]
    show List.map to_upper ["Animal", "farm", "Boxer"] = ["ANIMAL", "FARM", "BOXER"]
    decide

/-! ### The lookup table of `company_t` -/

theorem find_subscript {κ ν : Type} [DecidableEq κ] (init : ν) (g : ν → ν)
    (m : unordered_map κ ν) (key a : κ) :
    unordered_map.find (unordered_map.subscript init g m key) a =
      if key = a then some (g ((unordered_map.find m key).getD init))
      else unordered_map.find m a := by
  induction m with
  | nil => simp [unordered_map.subscript, unordered_map.find]
  | cons e rest ih =>
    obtain ⟨k, v⟩ := e
    by_cases hk : k = key
    · subst hk
      by_cases ha : k = a <;> simp [unordered_map.subscript, unordered_map.find, ha]
    · by_cases ha : key = a
      · subst ha
        simp [unordered_map.subscript, unordered_map.find, hk, ih]
      · simp [unordered_map.subscript, unordered_map.find, hk, ha, ih]

theorem team_name_for_hire (c : company_t) (q : person_t) (team : String) (p : person_t) :
    (c.hire q team).team_name_for p =
      if q.name = p.name then team else c.team_name_for p := by
  unfold company_t.team_name_for company_t.hire
  simp only [find_subscript]
  by_cases h : q.name = p.name <;> simp [h]

theorem last_assigned_cons (h : person_t × String) (hires : List (person_t × String))
    (name : String) :
    last_assigned (h :: hires) name =
      match last_assigned hires name with
      | some team => some team
      | none => if h.1.name = name then some h.2 else none := by
  unfold last_assigned
  rw [List.reverse_cons, List.find?_append]
  cases hfind : List.find? (fun h => decide (h.1.name = name)) hires.reverse with
  | some e => simp
  | none =>
    by_cases hn : h.1.name = name <;> simp [List.find?, hn]

theorem team_name_for_hire_all (c : company_t) (hires : List (person_t × String))
    (p : person_t) :
    (c.hire_all hires).team_name_for p =
      match last_assigned hires p.name with
      | some team => team
      | none => c.team_name_for p := by
  induction hires generalizing c with
  | nil => simp [company_t.hire_all, last_assigned]
  | cons h rest ih =>
    have hstep : c.hire_all (h :: rest) = (c.hire h.1 h.2).hire_all rest := rfl
    rw [hstep, ih, last_assigned_cons, team_name_for_hire]
    cases last_assigned rest p.name with
    | some team => rfl
    | none =>
      by_cases hn : h.1.name = p.name <;> simp [hn]

/-- C13: `team_name_for` always returns a team name: the sentinel "Unknown" when the
person's name has no entry in the lookup table, the entry's team when it has one; and
after any sequence of `hire` calls it returns the team of the latest call that hired
that name (from the empty company: "Unknown" if no call did). -/
theorem team_name_for_sentinel_or_latest (c : company_t) (hires : List (person_t × String))
    (person : person_t) :
    (unordered_map.find c.m_team_by_person person.name = none →
        c.team_name_for person = "Unknown") ∧
      (∀ team : String, unordered_map.find c.m_team_by_person person.name = some team →
        c.team_name_for person = team) ∧
      ((c.hire_all hires).team_name_for person =
        match last_assigned hires person.name with
        | some team => team
        | none => c.team_name_for person) ∧
      (company_t.hire_all {} hires).team_name_for person =
        (last_assigned hires person.name).getD "Unknown" := by
  refine ⟨?_, ?_, team_name_for_hire_all c hires person, ?_⟩
  · intro h
    simp [company_t.team_name_for, h]
  · intro team h
    simp [company_t.team_name_for, h]
  · rw [team_name_for_hire_all]
    cases last_assigned hires person.name <;> rfl

/-- C13, in the company of `main`: nobody named "Zed" was hired, so the lookup misses and
the sentinel comes back; "Tom" has the entry "Mars". -/
theorem team_name_for_sentinel_or_latest_main :
    main_company.team_name_for ⟨"Zed", .male, 1⟩ = "Unknown" ∧
      main_company.team_name_for ⟨"Tom", .male, 52⟩ = "Mars" :=
  ⟨(team_name_for_sentinel_or_latest main_company [] ⟨"Zed", .male, 1⟩).1 (by decide),
    (team_name_for_sentinel_or_latest main_company [] ⟨"Tom", .male, 52⟩).2.1 "Mars"
      (by decide)⟩

/-! ### The two "greater than 42" callables -/

/-- C14 (as stated, refuted): on the `double` argument `42.5` the bound comparison answers
`true` and the closure, whose parameter is an `int`, answers `false`. -/
theorem gt42_differ_on_double :
    is_greater_than_42 (.double_value ⟨85, -1⟩) = true ∧
      gt42_lambda (.double_value ⟨85, -1⟩) = false ∧
      is_greater_than_42 (.double_value ⟨85, -1⟩) ≠ gt42_lambda (.double_value ⟨85, -1⟩) := by
  decide

/-- C14 (amended): on every `int` argument `x` the bound comparison and the closure return
the same boolean, namely whether `x > 42`. -/
theorem gt42_agree_on_int (x : Int) :
    is_greater_than_42 (.int_value x) = gt42_lambda (.int_value x) ∧
      gt42_lambda (.int_value x) = decide (x > 42) := by
  simp [is_greater_than_42, gt42_lambda, std_greater_double, double_t.scaled,
    numeric_t.to_double, numeric_t.to_int]

/-! ### Counting occurrences -/

theorem find_foldl_subscript {T : Type} [DecidableEq T] (m : unordered_map T Nat)
    (xs : List T) (a : T) :
    unordered_map.find
        (xs.foldl (fun result v => unordered_map.subscript 0 (fun n => (n + 1) % 2 ^ 32) result v)
          m) a =
      if xs.count a = 0 then unordered_map.find m a
      else some (((unordered_map.find m a).getD 0 + xs.count a) % 2 ^ 32) := by
  induction xs generalizing m with
  | nil => simp
  | cons v rest ih =>
    rw [List.foldl_cons, ih, find_subscript]
    by_cases hv : v = a
    · subst hv
      by_cases hc : List.count v rest = 0
      · simp [hc]
      · simp only [hc, if_false, if_true, List.count_cons_self, Option.getD_some]
        simp only [Nat.add_one_ne_zero, if_false, Option.some.injEq]
        omega
    · have hne : (v == a) = false := by simpa using hv
      simp [hv, List.count_cons, hne]

theorem find_count_occurrences {T : Type} [DecidableEq T] (xs : List T) (a : T) :
    unordered_map.find (count_occurrences xs) a =
      if a ∈ xs then some (xs.count a % 2 ^ 32) else none := by
  unfold count_occurrences
  rw [find_foldl_subscript]
  by_cases h : a ∈ xs
  · have hc : List.count a xs ≠ 0 := by
      intro h0
      exact (List.count_eq_zero.mp h0) h
    simp [h, hc, unordered_map.find]
  · have hc : List.count a xs = 0 := List.count_eq_zero.mpr h
    simp [h, hc, unordered_map.find]

theorem keys_subscript {κ ν : Type} [DecidableEq κ] (init : ν) (g : ν → ν)
    (m : unordered_map κ ν) (key : κ) :
    (unordered_map.subscript init g m key).map Prod.fst =
      if key ∈ m.map Prod.fst then m.map Prod.fst else m.map Prod.fst ++ [key] := by
  induction m with
  | nil => simp [unordered_map.subscript]
  | cons e rest ih =>
    obtain ⟨k, v⟩ := e
    by_cases hk : k = key
    · simp [unordered_map.subscript, hk]
    · have hk2 : ¬ key = k := fun h => hk h.symm
      by_cases hmem : key ∈ rest.map Prod.fst
      · rw [unordered_map.subscript, if_neg hk, List.map_cons, ih, if_pos hmem]
        simp [hmem]
      · rw [unordered_map.subscript, if_neg hk, List.map_cons, ih, if_neg hmem]
        have hmem2 : ¬ ∃ x, (key, x) ∈ rest := by simpa using hmem
        simp [hk2, hmem2]

theorem nodup_keys_subscript {κ ν : Type} [DecidableEq κ] (init : ν) (g : ν → ν)
    (m : unordered_map κ ν) (key : κ) (hm : (m.map Prod.fst).Nodup) :
    ((unordered_map.subscript init g m key).map Prod.fst).Nodup := by
  rw [keys_subscript]
  by_cases hmem : key ∈ m.map Prod.fst
  · rw [if_pos hmem]
    exact hm
  · rw [if_neg hmem]
    exact List.Nodup.append hm (List.nodup_singleton key) (by simpa using hmem)

theorem nodup_keys_count_occurrences {T : Type} [DecidableEq T] (xs : List T) :
    ((count_occurrences xs).map Prod.fst).Nodup := by
  unfold count_occurrences
  have haux : ∀ (m : unordered_map T Nat), (m.map Prod.fst).Nodup →
      ((xs.foldl
        (fun result v => unordered_map.subscript 0 (fun n => (n + 1) % 2 ^ 32) result v)
        m).map Prod.fst).Nodup := by
    induction xs with
    | nil => intro m hm; exact hm
    | cons v rest ih =>
      intro m hm
      exact ih _ (nodup_keys_subscript 0 _ m v hm)
  exact haux [] List.nodup_nil

theorem find_eq_none_iff {κ ν : Type} [DecidableEq κ] (m : unordered_map κ ν) (key : κ) :
    unordered_map.find m key = none ↔ key ∉ m.map Prod.fst := by
  induction m with
  | nil => simp [unordered_map.find]
  | cons e rest ih =>
    obtain ⟨k, v⟩ := e
    by_cases hk : k = key
    · simp [unordered_map.find, hk]
    · have hk2 : ¬ key = k := fun h => hk h.symm
      simp only [unordered_map.find, hk, if_false, ih]
      simp [hk2]

theorem find_of_mem {κ ν : Type} [DecidableEq κ] (m : unordered_map κ ν) (key : κ) (v : ν)
    (hm : (m.map Prod.fst).Nodup) (hmem : (key, v) ∈ m) :
    unordered_map.find m key = some v := by
  induction m with
  | nil => cases hmem
  | cons e rest ih =>
    obtain ⟨k, w⟩ := e
    rw [List.map_cons, List.nodup_cons] at hm
    rcases List.mem_cons.mp hmem with heq | hrest
    · cases heq
      simp [unordered_map.find]
    · have hk : ¬ k = key := by
        intro h
        apply hm.1
        rw [h]
        exact List.mem_map.mpr ⟨(key, v), hrest, rfl⟩
      simp [unordered_map.find, hk, ih hm.2 hrest]

theorem key_mem_count_occurrences {T : Type} [DecidableEq T] (xs : List T) (a : T) :
    a ∈ (count_occurrences xs).map Prod.fst ↔ a ∈ xs := by
  have h := find_eq_none_iff (count_occurrences xs) a
  rw [find_count_occurrences] at h
  by_cases ha : a ∈ xs
  · simp only [ha, if_true] at h
    constructor
    · intro _
      exact ha
    · intro _
      by_contra hn
      exact absurd (h.mpr hn) (by simp)
  · simp only [ha, if_false, true_iff] at h
    exact ⟨fun hk => absurd hk h, fun hx => absurd hx ha⟩

/-- C15 (as stated, refuted): in a collection made of `2 ^ 32` copies of one character,
that character occurs `2 ^ 32` times and `count_occurrences` maps it to 0. -/
theorem count_occurrences_wraps :
    (List.replicate (2 ^ 32) 'a').count 'a' = 2 ^ 32 ∧
      unordered_map.find (count_occurrences (List.replicate (2 ^ 32) 'a')) 'a' = some 0 ∧
      unordered_map.find (count_occurrences (List.replicate (2 ^ 32) 'a')) 'a' ≠
        some ((List.replicate (2 ^ 32) 'a').count 'a') := by
  have hmem : 'a' ∈ List.replicate (2 ^ 32) 'a' :=
    List.mem_replicate.mpr ⟨by decide, rfl⟩
  have hfind : unordered_map.find (count_occurrences (List.replicate (2 ^ 32) 'a')) 'a' =
      some 0 := by
    rw [find_count_occurrences, if_pos hmem, List.count_replicate_self, Nat.mod_self]
  refine ⟨List.count_replicate_self _ _, hfind, ?_⟩
  rw [hfind, List.count_replicate_self]
  intro h
  have h0 : (0 : Nat) = 2 ^ 32 := Option.some.inj h
  exact absurd h0 (by decide)

/-- C15 (amended): `count_occurrences(xs)` has pairwise distinct keys, exactly the values
occurring in `xs`, and maps each to its number of occurrences modulo `2 ^ 32`; when no
value occurs `2 ^ 32` times or more, every count is the exact number of occurrences, no
entry has count 0, and the counts sum to the length of `xs`. -/
theorem count_occurrences_counts {T : Type} [DecidableEq T] (xs : List T) :
    (∀ a : T, unordered_map.find (count_occurrences xs) a =
        if a ∈ xs then some (xs.count a % 2 ^ 32) else none) ∧
      ((count_occurrences xs).map Prod.fst).Nodup ∧
      (∀ e ∈ count_occurrences xs, e.1 ∈ xs) ∧
      ((∀ a : T, xs.count a < 2 ^ 32) →
        (∀ a ∈ xs, unordered_map.find (count_occurrences xs) a = some (xs.count a)) ∧
          (∀ e ∈ count_occurrences xs, e.2 = xs.count e.1 ∧ e.2 ≠ 0) ∧
          ((count_occurrences xs).map Prod.snd).sum = xs.length) := by
  have hkey : ∀ e ∈ count_occurrences xs, e.1 ∈ xs := fun e he =>
    (key_mem_count_occurrences xs e.1).mp (List.mem_map.mpr ⟨e, he, rfl⟩)
  refine ⟨find_count_occurrences xs, nodup_keys_count_occurrences xs, hkey, ?_⟩
  intro hsmall
  have hentry : ∀ e ∈ count_occurrences xs, e.2 = xs.count e.1 := by
    intro e he
    have h1 := find_of_mem (count_occurrences xs) e.1 e.2 (nodup_keys_count_occurrences xs) he
    rw [find_count_occurrences, if_pos (hkey e he), Nat.mod_eq_of_lt (hsmall e.1)] at h1
    exact (Option.some.inj h1).symm
  refine ⟨?_, ?_, ?_⟩
  · intro a ha
    rw [find_count_occurrences, if_pos ha, Nat.mod_eq_of_lt (hsmall a)]
  · intro e he
    refine ⟨hentry e he, ?_⟩
    rw [hentry e he]
    exact fun h0 => (List.count_eq_zero.mp h0) (hkey e he)
  · have hsnd : (count_occurrences xs).map Prod.snd =
        ((count_occurrences xs).map Prod.fst).map fun a => xs.count a := by
      rw [List.map_map]
      exact List.map_congr_left fun e he => hentry e he
    have hperm : ((count_occurrences xs).map Prod.fst).Perm xs.dedup :=
      (List.perm_ext_iff_of_nodup (nodup_keys_count_occurrences xs) (List.nodup_dedup xs)).mpr
        fun a => by rw [key_mem_count_occurrences, List.mem_dedup]
    rw [hsnd, (hperm.map _).sum_eq]
    exact List.sum_map_count_dedup_eq_length xs

/-- C15, on the collection "a", "b", "a": two entries, counts 2 and 1, sum 3. -/
theorem count_occurrences_counts_aba :
    (∀ a : String, ["a", "b", "a"].count a < 2 ^ 32) ∧
      ((count_occurrences ["a", "b", "a"]).map Prod.snd).sum = 3 ∧
      unordered_map.find (count_occurrences ["a", "b", "a"]) "a" = some 2 :=
  have hsmall : ∀ a : String, ["a", "b", "a"].count a < 2 ^ 32 := fun a =>
    lt_of_le_of_lt (List.count_le_length a _) (by decide)
  ⟨hsmall, ((count_occurrences_counts ["a", "b", "a"]).2.2.2 hsmall).2.2,
    ((count_occurrences_counts ["a", "b", "a"]).2.2.2 hsmall).1 "a" (by decide)⟩

/-! ### Tokens as maximal alphabetic runs -/

theorem string_ne_empty_iff (cur : String) : cur ≠ "" ↔ cur.data ≠ [] := by
  constructor
  · intro h hd
    exact h (String.ext hd)
  · intro h hc
    exact h (by rw [hc])

theorem words_loop_eq_runs (rest : List Char) (out : List String) (cur : String) :
    words_loop rest out cur =
      out ++ ((((rest.splitOnP fun ch => !isalpha ch).map (List.map tolower)).modifyHead
        fun run => cur.data ++ run).filter fun run => decide (run ≠ [])).map String.mk := by
  induction rest generalizing out cur with
  | nil =>
    by_cases hcur : cur = ""
    · simp [words_loop, hcur]
    · have hd : cur.data ≠ [] := (string_ne_empty_iff cur).mp hcur
      simp [words_loop, hcur, hd]
  | cons ch rest ih =>
    obtain ⟨h, t, hS⟩ : ∃ h t, (rest.splitOnP fun ch => !isalpha ch) = h :: t := by
      cases hs : (rest.splitOnP fun ch => !isalpha ch) with
      | nil => exact absurd hs (List.splitOnP_ne_nil _ _)
      | cons h t => exact ⟨h, t, rfl⟩
    by_cases hch : isalpha ch = true
    · rw [words_loop, if_pos hch, ih, List.splitOnP_cons, hS]
      simp [hch, String.data_push]
    · have hch2 : isalpha ch = false := by simpa using hch
      by_cases hcur : cur = ""
      · rw [words_loop, if_neg hch, if_neg (by simpa using hcur), ih, List.splitOnP_cons, hS]
        simp [hch2, hcur]
      · have hd : cur.data ≠ [] := (string_ne_empty_iff cur).mp hcur
        rw [words_loop, if_neg hch, if_pos hcur, ih, List.splitOnP_cons, hS]
        simp [hch2, hd]

theorem tolower_is_lowercase (ch : Char) (hch : isalpha ch = true) :
    97 ≤ (tolower ch).toNat ∧ (tolower ch).toNat ≤ 122 := by
  have hshift : ∀ n : Nat, 65 ≤ n → n ≤ 90 → (Char.ofNat (n + 32)).toNat = n + 32 := by
    intro n h1 h2
    interval_cases n <;> rfl
  unfold tolower
  by_cases hup : 65 ≤ ch.toNat ∧ ch.toNat ≤ 90
  · rw [if_pos hup, hshift ch.toNat hup.1 hup.2]
    omega
  · rw [if_neg hup]
    simp only [isalpha, Bool.or_eq_true, Bool.and_eq_true, decide_eq_true_eq] at hch
    omega

theorem tokens_push_back (out : List String) (cur : String)
    (hout : ∀ w ∈ out, w ≠ "" ∧ ∀ c ∈ w.toList, 97 ≤ c.toNat ∧ c.toNat ≤ 122)
    (hcur : ∀ c ∈ cur.toList, 97 ≤ c.toNat ∧ c.toNat ≤ 122) (hne : cur ≠ "") :
    ∀ w ∈ out ++ [cur], w ≠ "" ∧ ∀ c ∈ w.toList, 97 ≤ c.toNat ∧ c.toNat ≤ 122 := by
  intro w hw
  rcases List.mem_append.mp hw with h | h
  · exact hout w h
  · rw [List.mem_singleton.mp h]
    exact ⟨hne, hcur⟩

theorem words_loop_tokens (rest : List Char) (out : List String) (cur : String)
    (hout : ∀ w ∈ out, w ≠ "" ∧ ∀ c ∈ w.toList, 97 ≤ c.toNat ∧ c.toNat ≤ 122)
    (hcur : ∀ c ∈ cur.toList, 97 ≤ c.toNat ∧ c.toNat ≤ 122) :
    ∀ w ∈ words_loop rest out cur, w ≠ "" ∧ ∀ c ∈ w.toList, 97 ≤ c.toNat ∧ c.toNat ≤ 122 := by
  induction rest generalizing out cur with
  | nil =>
    intro w hw
    by_cases hne : cur = ""
    · rw [words_loop, if_neg (by simpa using hne)] at hw
      exact hout w hw
    · rw [words_loop, if_pos hne] at hw
      exact tokens_push_back out cur hout hcur hne w hw
  | cons ch rest ih =>
    by_cases hch : isalpha ch = true
    · rw [words_loop, if_pos hch]
      apply ih out (cur.push (tolower ch)) hout
      intro c hc
      rw [String.toList, String.data_push] at hc
      rcases List.mem_append.mp hc with h | h
      · exact hcur c h
      · rw [List.mem_singleton.mp h]
        exact tolower_is_lowercase ch hch
    · by_cases hne : cur = ""
      · rw [words_loop, if_neg hch, if_neg (by simpa using hne)]
        exact ih out cur hout hcur
      · rw [words_loop, if_neg hch, if_pos hne]
        apply ih (out ++ [cur]) "" (tokens_push_back out cur hout hcur hne)
        intro c hc
        cases hc

theorem words_loop_no_letters (rest : List Char) (out : List String)
    (hrest : ∀ c ∈ rest, isalpha c = false) : words_loop rest out "" = out := by
  induction rest with
  | nil => simp [words_loop]
  | cons ch rest ih =>
    have hch : isalpha ch = false := hrest ch (List.mem_cons_self ch rest)
    rw [words_loop]
    simp only [hch, Bool.false_eq_true, if_false, ne_eq, not_true_eq_false]
    exact ih fun c hc => hrest c (List.mem_cons_of_mem ch hc)

theorem filter_map_tolower (runs : List (List Char)) :
    ((runs.map (List.map tolower)).filter fun run => decide (run ≠ [])).map String.mk =
      (runs.filter fun run => decide (run ≠ [])).map fun run => String.mk (run.map tolower) := by
  induction runs with
  | nil => rfl
  | cons run rest ih =>
    by_cases hrun : run = []
    · simpa [hrun] using ih
    · simpa [hrun] using ih

/-- C16: `words(text)` is the list, in order of appearance, of the maximal runs of
alphabetic characters of the text, each lowercased; no token is empty, every character of
a token is a lowercase letter, a text without alphabetic characters yields no token, and
"hen-houses" yields "hen" and "houses". -/
theorem words_eq_alphabetic_runs (text : String) :
    words text = alphabetic_runs text ∧
      (∀ w ∈ words text, w ≠ "" ∧ ∀ c ∈ w.toList, 97 ≤ c.toNat ∧ c.toNat ≤ 122) ∧
      ((∀ c ∈ text.toList, isalpha c = false) → words text = []) ∧
      words "hen-houses" = ["hen", "houses"] := by
  refine ⟨?_, ?_, ?_, by decide⟩
  · rw [words, words_loop_eq_runs, alphabetic_runs]
    obtain ⟨h, t, hS⟩ : ∃ h t, (text.toList.splitOnP fun ch => !isalpha ch) = h :: t := by
      cases hs : (text.toList.splitOnP fun ch => !isalpha ch) with
      | nil => exact absurd hs (List.splitOnP_ne_nil _ _)
      | cons h t => exact ⟨h, t, rfl⟩
    rw [hS]
    have hhead : ((h :: t).map (List.map tolower)).modifyHead (fun run => "".data ++ run) =
        (h :: t).map (List.map tolower) := by simp
    rw [hhead, List.nil_append]
    exact filter_map_tolower (h :: t)
  · exact words_loop_tokens text.toList [] "" (fun w hw => by cases hw) (fun c hc => by cases hc)
  · intro hnone
    exact words_loop_no_letters text.toList [] hnone

/-- C16, on a text made of digits, blanks and punctuation only. -/
theorem words_eq_alphabetic_runs_no_letters : words "12, 34 -- 5!" = [] :=
  (words_eq_alphabetic_runs "12, 34 -- 5!").2.2.1 (by decide)

/-! ### The age of a project -/

theorem tdiv_twelve (m : Int) :
    Int.tdiv m 12 = if 0 ≤ m then m / 12 else -((-m) / 12) := by
  by_cases hm : 0 ≤ m
  · rw [if_pos hm, Int.tdiv_eq_ediv hm (by decide)]
  · rw [if_neg hm]
    have hneg : Int.tdiv m 12 = -Int.tdiv (-m) 12 := by
      rw [Int.neg_tdiv, neg_neg]
    rw [hneg, Int.tdiv_eq_ediv (by omega) (by decide)]

/-- C17: for every `months_elapsed = m`, negative values included, `age()` is `m / 12`
rounded toward zero; for `m ≥ 0` this gives `12 * age() ≤ m < 12 * age() + 12`; the sample
projects with 13, 7, 24 and 5 months have ages 1, 0, 2, 0 and none is older than 2. -/
theorem project_age_truncates (p : project_t) :
    p.age = Int.tdiv p.months_elapsed 12 ∧
      p.age = (if 0 ≤ p.months_elapsed then p.months_elapsed / 12
        else -((-p.months_elapsed) / 12)) ∧
      (0 ≤ p.months_elapsed →
        12 * p.age ≤ p.months_elapsed ∧ p.months_elapsed < 12 * p.age + 12) ∧
      (p.months_elapsed ≤ 0 →
        p.months_elapsed ≤ 12 * p.age ∧ 12 * p.age - 12 < p.months_elapsed) ∧
      projects.map project_t.months_elapsed = [13, 7, 24, 5] ∧
      projects.map project_t.age = [1, 0, 2, 0] ∧
      count_if projects (older_than.mk 2).call = 0 := by
  have hage : p.age = (if 0 ≤ p.months_elapsed then p.months_elapsed / 12
      else -((-p.months_elapsed) / 12)) := tdiv_twelve p.months_elapsed
  refine ⟨rfl, hage, ?_, ?_, by decide, by decide, by decide⟩
  · intro hm
    rw [hage, if_pos hm]
    omega
  · intro hm
    rw [hage]
    by_cases h0 : 0 ≤ p.months_elapsed
    · rw [if_pos h0]
      omega
    · rw [if_neg h0]
      omega

/-- C17, on a project 25 months old and on one dated 25 months ahead. -/
theorem project_age_truncates_sample :
    12 * (project_t.mk "PX" 25).age ≤ 25 ∧ (25 : Int) < 12 * (project_t.mk "PX" 25).age + 12 ∧
      (-25 : Int) ≤ 12 * (project_t.mk "NX" (-25)).age ∧ (project_t.mk "NX" (-25)).age = -2 :=
  ⟨((project_age_truncates (project_t.mk "PX" 25)).2.2.1 (by decide)).1,
    ((project_age_truncates (project_t.mk "PX" 25)).2.2.1 (by decide)).2,
    ((project_age_truncates (project_t.mk "NX" (-25))).2.2.2.1 (by decide)).1,
    by decide⟩

/-! ### Printing the first pairs -/

theorem foldl_append_init (init : String) (l : List String) :
    l.foldl (fun r s => r ++ s) init = init ++ l.foldl (fun r s => r ++ s) "" := by
  induction l generalizing init with
  | nil => simp
  | cons a rest ih =>
    rw [List.foldl_cons, List.foldl_cons, ih (init ++ a), ih ("" ++ a)]
    simp [String.append_assoc]

theorem string_join_cons (a : String) (l : List String) :
    String.join (a :: l) = a ++ String.join l := by
  unfold String.join
  rw [List.foldl_cons, foldl_append_init]
  simp

theorem print_pairs_loop_eq (topN : Nat) (v : List (Nat × String)) (shown : Nat)
    (cout : String) :
    print_pairs_loop topN v shown cout =
      cout ++ String.join ((v.take (topN - shown)).map pair_line) := by
  induction v generalizing shown cout with
  | nil => simp [print_pairs_loop, String.join]
  | cons p rest ih =>
    by_cases hs : shown ≥ topN
    · have h0 : topN - shown = 0 := by omega
      simp [print_pairs_loop, hs, h0, String.join]
    · have hstep : topN - shown = (topN - (shown + 1)) + 1 := by omega
      rw [print_pairs_loop, if_neg hs, ih, hstep, List.take_succ_cons, List.map_cons,
        string_join_cons]
      simp [pair_line, String.append_assoc]

/-- C18: `print_pairs(v, N)` writes the lines of the first `min(N, length of v)` pairs of
`v`, in order and each once: nothing when `N = 0`, all of `v` when `N` is at least its
length. -/
theorem print_pairs_first_n (v : List (Nat × String)) (topN : Nat) :
    print_pairs v topN = String.join ((v.take topN).map pair_line) ∧
      (v.take topN).length = min topN v.length ∧
      print_pairs v 0 = "" ∧
      (v.length ≤ topN → print_pairs v topN = String.join (v.map pair_line)) := by
  have hall : ∀ n : Nat, print_pairs v n = String.join ((v.take n).map pair_line) := by
    intro n
    rw [print_pairs, print_pairs_loop_eq]
    simp
  refine ⟨hall topN, List.length_take topN v, ?_, ?_⟩
  · rw [hall 0]
    rfl
  · intro hlen
    rw [hall topN, List.take_of_length_le hlen]

/-- C18, on two pairs with `N = 6`: both lines are written. -/
theorem print_pairs_first_n_all :
    print_pairs [(4, "the"), (2, "to")] 6 = "4 the\n2 to\n" :=
  ((print_pairs_first_n [(4, "the"), (2, "to")] 6).2.2.2 (by decide)).trans (by decide)

/-! ### Hiring and the team counts -/

theorem static_cast_int_succ (n : Nat) (h : static_cast_int n ≠ 2 ^ 31 - 1) :
    static_cast_int (n + 1) = static_cast_int n + 1 := by
  unfold static_cast_int at *
  push_cast
  omega

theorem static_cast_int_of_lt (n : Nat) (h : n < 2 ^ 31) : static_cast_int n = n := by
  unfold static_cast_int
  omega

theorem count_team_members_eq (c : company_t) (team : String) :
    c.count_team_members team = static_cast_int (c.team_tally team) := rfl

theorem team_tally_hire (c : company_t) (person : person_t) (team other : String)
    (hfresh : person.name ∉ c.m_employees.map person_t.name) :
    (c.hire person team).team_tally other =
      c.team_tally other + if team = other then 1 else 0 := by
  have hsame : ∀ e ∈ c.m_employees,
      decide ((c.hire person team).team_name_for e = other) =
        decide (c.team_name_for e = other) := by
    intro e he
    have hne : ¬ person.name = e.name := by
      intro heq
      exact hfresh (heq ▸ List.mem_map.mpr ⟨e, he, rfl⟩)
    rw [team_name_for_hire, if_neg hne]
  have hnew : (c.hire person team).team_name_for person = team := by
    rw [team_name_for_hire, if_pos rfl]
  have hemp : (c.hire person team).m_employees = c.m_employees ++ [person] := rfl
  unfold company_t.team_tally
  rw [count_if_eq, count_if_eq, hemp, List.filter_append, List.length_append,
    List.filter_congr hsame]
  by_cases ht : team = other
  · have hp : decide ((c.hire person team).team_name_for person = other) = true := by
      rw [hnew]
      exact decide_eq_true ht
    simp only [List.filter, hp, if_pos ht, List.length]
  · have hp : ¬ decide ((c.hire person team).team_name_for person = other) = true := by
      rw [hnew]
      simpa using ht
    have hp2 : decide ((c.hire person team).team_name_for person = other) = false := by
      simpa using hp
    simp only [List.filter, hp2, if_neg ht, List.length]
theorem hire_all_append (c : company_t) (hires : List (person_t × String))
    (h : person_t × String) :
    c.hire_all (hires ++ [h]) = (c.hire_all hires).hire h.1 h.2 := by
  unfold company_t.hire_all
  rw [List.foldl_append]
  rfl

theorem hire_all_replicate (a : person_t) (team : String) (n : Nat) :
    (company_t.hire_all {} (List.replicate (n + 1) (a, team))).m_employees =
        List.replicate (n + 1) a ∧
      (company_t.hire_all {} (List.replicate (n + 1) (a, team))).m_team_by_person =
        [(a.name, team)] := by
  induction n with
  | zero =>
    constructor
    · rfl
    · rfl
  | succ n ih =>
    rw [List.replicate_succ' (n + 1), hire_all_append]
    constructor
    · show (company_t.hire_all {} (List.replicate (n + 1) (a, team))).m_employees ++ [a] = _
      rw [ih.1, ← List.replicate_succ']
    · show unordered_map.subscript "" (fun _ => team)
        (company_t.hire_all {} (List.replicate (n + 1) (a, team))).m_team_by_person a.name = _
      rw [ih.2]
      simp [unordered_map.subscript]

theorem team_tally_replicate (a : person_t) (team : String) (n : Nat) :
    (company_t.hire_all {} (List.replicate (n + 1) (a, team))).team_tally team = n + 1 := by
  have hname : (company_t.hire_all {} (List.replicate (n + 1) (a, team))).team_name_for a =
      team := by
    unfold company_t.team_name_for
    rw [(hire_all_replicate a team n).2]
    simp [unordered_map.find]
  unfold company_t.team_tally
  rw [count_if_eq, (hire_all_replicate a team n).1, List.filter_replicate,
    if_pos (decide_eq_true hname), List.length_replicate]

/-- C19 (as stated, refuted): on a roster of `2 ^ 31 - 1` entries, all hired to team "T"
under the name "Ann", `count_team_members("T")` is `2147483647`, and hiring "Bob", who is
not on the roster, to "T" makes it `-2147483648`. -/
theorem hire_count_wraps :
    (person_t.mk "Bob" .male 40).name ∉
        (company_t.hire_all {}
          (List.replicate (2 ^ 31 - 1) (person_t.mk "Ann" .female 30, "T"))).m_employees.map
          person_t.name ∧
      (company_t.hire_all {}
        (List.replicate (2 ^ 31 - 1) (person_t.mk "Ann" .female 30, "T"))).count_team_members
        "T" = 2147483647 ∧
      ((company_t.hire_all {}
        (List.replicate (2 ^ 31 - 1) (person_t.mk "Ann" .female 30, "T"))).hire
          (person_t.mk "Bob" .male 40) "T").count_team_members "T" = -2147483648 := by
  have hn : 2 ^ 31 - 1 = (2 ^ 31 - 2) + 1 := by decide
  have hfresh : (person_t.mk "Bob" .male 40).name ∉
      (company_t.hire_all {}
        (List.replicate (2 ^ 31 - 1) (person_t.mk "Ann" .female 30, "T"))).m_employees.map
        person_t.name := by
    rw [hn, (hire_all_replicate _ _ _).1, List.map_replicate]
    intro hmem
    exact absurd (List.eq_of_mem_replicate hmem) (by decide)
  have htally : (company_t.hire_all {}
      (List.replicate (2 ^ 31 - 1) (person_t.mk "Ann" .female 30, "T"))).team_tally "T" =
      2 ^ 31 - 1 := by
    rw [hn, team_tally_replicate]
  refine ⟨hfresh, ?_, ?_⟩
  · rw [count_team_members_eq, htally]
    decide
  · rw [count_team_members_eq, team_tally_hire _ _ _ _ hfresh, htally, if_pos rfl]
    decide

/-- C19 (amended): for every company state, every team `T` and every person whose name
is not the name of an employee on the roster, `hire(person, T)` raises the tally of `T` by
one and leaves `count_team_members(U)` unchanged for every other team `U`;
`count_team_members(T)` goes up by exactly one unless it was `2147483647`, the largest
`int`. -/
theorem hire_counts (c : company_t) (person : person_t) (team : String)
    (hfresh : person.name ∉ c.m_employees.map person_t.name) :
    (c.hire person team).team_tally team = c.team_tally team + 1 ∧
      (c.count_team_members team ≠ 2 ^ 31 - 1 →
        (c.hire person team).count_team_members team = c.count_team_members team + 1) ∧
      ∀ other : String, other ≠ team →
        (c.hire person team).count_team_members other = c.count_team_members other := by
  have htally : (c.hire person team).team_tally team = c.team_tally team + 1 := by
    rw [team_tally_hire c person team team hfresh, if_pos rfl]
  refine ⟨htally, ?_, ?_⟩
  · intro hmax
    rw [count_team_members_eq, htally, count_team_members_eq]
    exact static_cast_int_succ _ hmax
  · intro other hother
    rw [count_team_members_eq, team_tally_hire c person team other hfresh,
      if_neg (fun h => hother h.symm), count_team_members_eq]
    rfl

/-- C19, in the company of `main`: hiring "Zoe" to "Mars" makes it 4 and leaves "Moon"
at 4. -/
theorem hire_counts_main :
    (main_company.hire ⟨"Zoe", .female, 33⟩ "Mars").count_team_members "Mars" = 4 ∧
      (main_company.hire ⟨"Zoe", .female, 33⟩ "Mars").count_team_members "Moon" = 4 :=
  ⟨((hire_counts main_company ⟨"Zoe", .female, 33⟩ "Mars" (by decide)).2.1 (by decide)).trans
      (by decide),
    ((hire_counts main_company ⟨"Zoe", .female, 33⟩ "Mars" (by decide)).2.2 "Moon"
      (by decide)).trans (by decide)⟩

/-! ### The roster and the lookup table -/

theorem mem_of_find {κ ν : Type} [DecidableEq κ] (m : unordered_map κ ν) (key : κ) (v : ν)
    (h : unordered_map.find m key = some v) : (key, v) ∈ m := by
  induction m with
  | nil => simp [unordered_map.find] at h
  | cons e rest ih =>
    obtain ⟨k, w⟩ := e
    by_cases hk : k = key
    · simp only [unordered_map.find, hk, if_true, Option.some.injEq] at h
      rw [hk, h]
      exact List.mem_cons_self _ _
    · simp only [unordered_map.find, hk, if_false] at h
      exact List.mem_cons_of_mem _ (ih h)

theorem entries_hire (c : company_t) (person : person_t) (team : String)
    (hinv : ∀ e ∈ c.m_employees, unordered_map.find c.m_team_by_person e.name ≠ none) :
    ∀ e ∈ (c.hire person team).m_employees,
      unordered_map.find (c.hire person team).m_team_by_person e.name ≠ none := by
  intro e he
  have hemp : (c.hire person team).m_employees = c.m_employees ++ [person] := rfl
  have hmap : (c.hire person team).m_team_by_person =
      unordered_map.subscript "" (fun _ => team) c.m_team_by_person person.name := rfl
  rw [hmap, find_subscript]
  by_cases hname : person.name = e.name
  · rw [if_pos hname]
    exact Option.some_ne_none _
  · rw [if_neg hname]
    rw [hemp] at he
    rcases List.mem_append.mp he with h | h
    · exact hinv e h
    · exact absurd (List.mem_singleton.mp h ▸ rfl) hname

theorem entries_hire_all (c : company_t) (hires : List (person_t × String))
    (hinv : ∀ e ∈ c.m_employees, unordered_map.find c.m_team_by_person e.name ≠ none) :
    ∀ e ∈ (c.hire_all hires).m_employees,
      unordered_map.find (c.hire_all hires).m_team_by_person e.name ≠ none := by
  induction hires generalizing c with
  | nil => exact hinv
  | cons h rest ih => exact ih (c.hire h.1 h.2) (entries_hire c h.1 h.2 hinv)

theorem sum_indicator_eq_count (teams : List String) (x : String) :
    (teams.map fun team => if x = team then 1 else 0).sum = teams.count x := by
  induction teams with
  | nil => rfl
  | cons t rest ih =>
    rw [List.map_cons, List.sum_cons, ih, List.count_cons]
    by_cases hx : x = t
    · simp [hx]
      omega
    · have hx2 : (t == x) = false := by simpa using fun h : t = x => hx h.symm
      simp [hx, hx2]

theorem sum_count_eq_length (teams names : List String) (hnodup : teams.Nodup)
    (hsub : ∀ x ∈ names, x ∈ teams) :
    (teams.map fun team => names.count team).sum = names.length := by
  induction names with
  | nil => simp
  | cons x rest ih =>
    have hcount : ∀ team : String,
        (x :: rest).count team = rest.count team + if x = team then 1 else 0 := by
      intro team
      rw [List.count_cons]
      by_cases hx : x = team
      · simp [hx]
      · have hx2 : (x == team) = false := by simpa using hx
        simp [hx, hx2]
    simp only [hcount]
    rw [List.sum_map_add, ih fun y hy => hsub y (List.mem_cons_of_mem x hy),
      sum_indicator_eq_count,
      List.count_eq_one_of_mem hnodup (hsub x (List.mem_cons_self x rest)), List.length_cons]

theorem team_tally_eq_count (c : company_t) (team : String) :
    c.team_tally team = (c.m_employees.map c.team_name_for).count team := by
  unfold company_t.team_tally
  rw [count_if_eq, List.count, List.countP_map, List.countP_eq_length_filter]
  congr 1

theorem team_tally_sum (c : company_t)
    (hinv : ∀ e ∈ c.m_employees, unordered_map.find c.m_team_by_person e.name ≠ none) :
    (c.team_names.map c.team_tally).sum = c.m_employees.length := by
  have hsub : ∀ x ∈ c.m_employees.map c.team_name_for, x ∈ c.team_names := by
    intro x hx
    obtain ⟨e, he, hxe⟩ := List.mem_map.mp hx
    cases hfind : unordered_map.find c.m_team_by_person e.name with
    | none => exact absurd hfind (hinv e he)
    | some team =>
      have hname : c.team_name_for e = team := by
        simp [company_t.team_name_for, hfind]
      rw [← hxe, hname, company_t.team_names, List.mem_dedup]
      exact List.mem_map.mpr ⟨(e.name, team), mem_of_find _ _ _ hfind, rfl⟩
  have hfun : c.team_tally = fun team => (c.m_employees.map c.team_name_for).count team :=
    funext (team_tally_eq_count c)
  rw [hfun, sum_count_eq_length c.team_names _ (List.nodup_dedup _) hsub, List.length_map]

theorem count_team_members_sum (c : company_t) (teams : List String)
    (hsmall : ∀ team ∈ teams, c.team_tally team < 2 ^ 31) :
    (teams.map c.count_team_members).sum = ((teams.map c.team_tally).sum : Nat) := by
  induction teams with
  | nil => rfl
  | cons t rest ih =>
    rw [List.map_cons, List.sum_cons, ih fun team h => hsmall team (List.mem_cons_of_mem t h),
      List.map_cons, List.sum_cons, count_team_members_eq,
      static_cast_int_of_lt _ (hsmall t (List.mem_cons_self t rest))]
    push_cast
    rfl

/-- C20 (as stated, refuted): after `2 ^ 31` calls hiring "Ann" to team "T", the roster
has `2147483648` entries, "T" is the only team name in the lookup table, and the sum of
`count_team_members` over the team names is `-2147483648`. -/
theorem count_sum_wraps :
    (company_t.hire_all {}
        (List.replicate (2 ^ 31) (person_t.mk "Ann" .female 30, "T"))).m_employees.length =
        2147483648 ∧
      (company_t.hire_all {}
        (List.replicate (2 ^ 31) (person_t.mk "Ann" .female 30, "T"))).team_names = ["T"] ∧
      ((company_t.hire_all {}
        (List.replicate (2 ^ 31) (person_t.mk "Ann" .female 30, "T"))).team_names.map
          (company_t.hire_all {}
            (List.replicate (2 ^ 31)
              (person_t.mk "Ann" .female 30, "T"))).count_team_members).sum =
        -2147483648 := by
  have hn : 2 ^ 31 = (2 ^ 31 - 1) + 1 := by decide
  have hnames : (company_t.hire_all {}
      (List.replicate (2 ^ 31) (person_t.mk "Ann" .female 30, "T"))).team_names = ["T"] := by
    unfold company_t.team_names
    rw [hn, (hire_all_replicate _ _ _).2]
    decide
  have htally : (company_t.hire_all {}
      (List.replicate (2 ^ 31) (person_t.mk "Ann" .female 30, "T"))).team_tally "T" =
      2 ^ 31 := by
    rw [hn, team_tally_replicate]
  refine ⟨?_, hnames, ?_⟩
  · rw [hn, (hire_all_replicate _ _ _).1, List.length_replicate]
    decide
  · rw [hnames, List.map_cons, List.map_nil, List.sum_cons, List.sum_nil, add_zero,
      count_team_members_eq, htally]
    decide

/-- C20 (amended): in every company state reached from the empty company by `hire`
calls, every employee on the roster has an entry in the lookup table, so `team_name_for`
returns that entry's team, one of the team names of the table, and not the fallback; the
tallies over the distinct team names sum to the number of employees, and so do the values
of `count_team_members` when no team has `2 ^ 31` members or more. -/
theorem roster_has_entries (hires : List (person_t × String)) :
    (∀ e ∈ (company_t.hire_all {} hires).m_employees,
      ∃ team : String,
        unordered_map.find (company_t.hire_all {} hires).m_team_by_person e.name = some team ∧
          (company_t.hire_all {} hires).team_name_for e = team ∧
          team ∈ (company_t.hire_all {} hires).team_names) ∧
      ((company_t.hire_all {} hires).team_names.map
        (company_t.hire_all {} hires).team_tally).sum =
        (company_t.hire_all {} hires).m_employees.length ∧
      ((∀ team ∈ (company_t.hire_all {} hires).team_names,
          (company_t.hire_all {} hires).team_tally team < 2 ^ 31) →
        ((company_t.hire_all {} hires).team_names.map
          (company_t.hire_all {} hires).count_team_members).sum =
          ((company_t.hire_all {} hires).m_employees.length : Int)) := by
  have hinv : ∀ e ∈ (company_t.hire_all {} hires).m_employees,
      unordered_map.find (company_t.hire_all {} hires).m_team_by_person e.name ≠ none :=
    entries_hire_all {} hires (fun e he => by cases he)
  refine ⟨?_, team_tally_sum _ hinv, ?_⟩
  · intro e he
    cases hfind :
        unordered_map.find (company_t.hire_all {} hires).m_team_by_person e.name with
    | none => exact absurd hfind (hinv e he)
    | some team =>
      refine ⟨team, rfl, ?_, ?_⟩
      · simp [company_t.team_name_for, hfind]
      · rw [company_t.team_names, List.mem_dedup]
        exact List.mem_map.mpr ⟨(e.name, team), mem_of_find _ _ _ hfind, rfl⟩
  · intro hsmall
    rw [count_team_members_sum _ _ hsmall, team_tally_sum _ hinv]

/-- C20, for the nine hires of `main`: the counts of "Mars", "Earth" and "Moon" sum
to 9. -/
theorem roster_has_entries_main :
    main_company.team_names = ["Mars", "Earth", "Moon"] ∧
      (main_company.team_names.map main_company.count_team_members).sum = 9 :=
  ⟨by decide, (roster_has_entries main_hires).2.2 (by decide)⟩

end FPCpp
